import Mathlib

/-!
# hashicorp-releases: a verification development for `releases.go`

The program fetches the release index of a product, selects the latest
version (`Release.LatestRelease`), looks up the linux/amd64 build
(`Version.Build`) and compares the latest version with the expected one
(`main`).

Go values are embedded as follows.

* A Go `string` is a Lean `String`; library code that walks a string works on
  its list of characters.
* A Go `map[string]Version` is a list of key/value pairs whose order is the
  order in which `range` visits the map in the run under consideration. Every
  theorem quantifies over the list, hence over every iteration order. The
  keys of a map are pairwise distinct, so `len(m)` is the length of the list
  and `m[key]` is the value of the one pair with that key.
* A Go slice that is compared with `nil` is an `Option (List _)`: `none` is
  the nil slice, `some []` an empty slice that is not nil.
* A Go pointer result that may be `nil` is an `Option`.
* Text written with `fmt.Printf` is accumulated in a `String`.
* A value of the interface `error` is a `GoError`; its text is what its
  method `Error` returns.
* Two parts of the standard library are not embedded and are taken as given,
  as the fields of a `Library`: the sort that `sort.Sort` runs on a slice of
  more than 12 elements, and `strconv.Quote`, with which the verb `%q` and
  `strconv.NumError` render a string.
* `uint64` fields are natural numbers; `strconv.ParseUint` rejects what does
  not fit in 64 bits.
-/

namespace HashicorpReleases

/-! ## Go standard library: `error`, `strings`, `strconv` -/

/-- A value of the interface `error`, as the libraries build it. -/
inductive GoError where
  /-- The value `errors.New(text)`. -/
  | New (text : String)
  /-- The value `fmt.Errorf(text + " %q", arg)`. -/
  | Errorf (text : String) (arg : List Char)
  /-- The value `&strconv.NumError{Func, Num, Err}`, `Err` given by its text. -/
  | NumError (Func : String) (Num : List Char) (Err : String)
deriving DecidableEq, Repr

/-- The method `Error` of an `error`, the text that `%s` prints for it.
`Quote` is `strconv.Quote`. -/
def GoError.Error (Quote : List Char → String) : GoError → String
  | GoError.New text => text
  | GoError.Errorf text arg => text ++ " " ++ Quote arg
  | GoError.NumError Func Num Err =>
    "strconv." ++ Func ++ ": parsing " ++ Quote Num ++ ": " ++ Err

namespace strings

/-- Cut `s` at the first occurrence of `sep`: the text before and the text
after it, or `none` when `sep` does not occur (`strings.IndexRune` followed
by the two slicings). -/
def cutAt (sep : Char) : List Char → Option (List Char × List Char)
  | [] => none
  | c :: cs =>
    if c = sep then some ([], cs)
    else
      match cutAt sep cs with
      | none => none
      | some (a, b) => some (c :: a, b)

/-- The call `strings.SplitN(s, sep, n)` for `n ≥ 0` and a one-character
separator: at most `n` pieces, the last one being the unsplit rest. -/
def SplitN (s : List Char) (sep : Char) : Nat → List (List Char)
  | 0 => []
  | 1 => [s]
  | n + 2 =>
    match cutAt sep s with
    | none => [s]
    | some (a, b) => a :: SplitN b sep (n + 1)

/-- The call `strings.Split(s, sep)`: every piece between separators. A
string of length `k` has at most `k + 1` pieces. -/
def Split (s : List Char) (sep : Char) : List (List Char) :=
  SplitN s sep (s.length + 1)

/-- The call `strings.Join(parts, sep)` for a one-character separator. -/
def Join (sep : Char) : List (List Char) → List Char
  | [] => []
  | [p] => p
  | p :: q :: ps => p ++ sep :: Join sep (q :: ps)

end strings

namespace strconv

/-- Value of a decimal digit character. -/
def digitVal (c : Char) : Nat := c.toNat - 48

/-- Value of a string of decimal digits, most significant digit first. -/
def decimalValue (s : List Char) : Nat :=
  s.foldl (fun n c => 10 * n + digitVal c) 0

/-- The call `strconv.ParseUint(s, 10, 64)`. -/
def ParseUint (s : List Char) : Except GoError Nat :=
  if s.length = 0 ∨ ¬ s.all Char.isDigit then
    Except.error (GoError.NumError "ParseUint" s "invalid syntax")
  else if decimalValue s ≥ 2 ^ 64 then
    Except.error (GoError.NumError "ParseUint" s "value out of range")
  else
    Except.ok (decimalValue s)

/-- The call `strconv.FormatUint(n, 10)`. -/
def FormatUint (n : Nat) : List Char := Nat.toDigits 10 n

end strconv

/-! ## The library `github.com/blang/semver` (imported by `releases.go`) -/

namespace semver

def numbers : List Char := "0123456789".data

def alphas : List Char := "abcdefghijklmnopqrstuvwxyzABCDEFGHIJKLMNOPQRSTUVWXYZ-".data

def alphanum : List Char := alphas ++ numbers

/-- A prerelease identifier: `PRVersion`. -/
structure PRVersion where
  VersionStr : String
  VersionNum : Nat
  IsNum : Bool
deriving DecidableEq, Repr

/-- A parsed semantic version: `semver.Version`. -/
structure Version where
  Major : Nat
  Minor : Nat
  Patch : Nat
  Pre : List PRVersion
  Build : List String
deriving DecidableEq, Repr

/-- The zero value of `semver.Version`, with which `make` fills a slice. -/
def Version.zero : Version := ⟨0, 0, 0, [], []⟩

def containsOnly (s : List Char) (set : List Char) : Bool :=
  s.all (fun c => set.contains c)

def hasLeadingZeroes (s : List Char) : Bool :=
  decide (s.length > 1) && (s.head? == some '0')

/-- The function `NewPRVersion`. -/
def NewPRVersion (s : List Char) : Except GoError PRVersion :=
  if s.length = 0 then Except.error (GoError.New "Prerelease is empty")
  else if containsOnly s numbers then
    if hasLeadingZeroes s then
      Except.error
        (GoError.Errorf "Numeric PreRelease version must not contain leading zeroes" s)
    else
      match strconv.ParseUint s with
      | Except.error e => Except.error e
      | Except.ok num => Except.ok ⟨"", num, true⟩
  else if containsOnly s alphanum then Except.ok ⟨String.mk s, 0, false⟩
  else Except.error (GoError.Errorf "Invalid character(s) found in prerelease" s)

/-- The three blocks of `Parse` that read the major, minor and patch number
differ only in the wording of their errors, passed here as `lower` and
`upper`. -/
def parseNumber (lower upper : String) (part : List Char) : Except GoError Nat :=
  if !containsOnly part numbers then
    Except.error (GoError.Errorf ("Invalid character(s) found in " ++ lower ++ " number") part)
  else if hasLeadingZeroes part then
    Except.error (GoError.Errorf (upper ++ " number must not contain leading zeroes") part)
  else strconv.ParseUint part

/-- The loop of `Parse` over the prerelease identifiers. -/
def parsePrerelease : List (List Char) → Except GoError (List PRVersion)
  | [] => Except.ok []
  | p :: ps =>
    match NewPRVersion p with
    | Except.error e => Except.error e
    | Except.ok pr =>
      match parsePrerelease ps with
      | Except.error e => Except.error e
      | Except.ok prs => Except.ok (pr :: prs)

/-- The loop of `Parse` over the build meta data. -/
def parseBuild : List (List Char) → Except GoError (List String)
  | [] => Except.ok []
  | b :: bs =>
    if b.length = 0 then Except.error (GoError.New "Build meta data is empty")
    else if !containsOnly b alphanum then
      Except.error (GoError.Errorf "Invalid character(s) found in build meta data" b)
    else
      match parseBuild bs with
      | Except.error e => Except.error e
      | Except.ok rest => Except.ok (String.mk b :: rest)

/-- The two blocks of `Parse` that cut the build meta data (at the first
`+`) and the prerelease (at the first `-`) off the patch part: the pieces
after the cut, split at the dots, and the text before the cut. Without the
cut character the list of pieces stays nil and the text is unchanged. -/
def cutMeta (sep : Char) (patchStr : List Char) : List (List Char) × List Char :=
  match strings.cutAt sep patchStr with
  | some (a, b) => (strings.Split b '.', a)
  | none => ([], patchStr)

/-- The part of `Parse` after the split into major, minor and the rest. -/
def parseParts (p0 p1 p2 : List Char) : Except GoError Version :=
  match parseNumber "major" "Major" p0 with
  | Except.error e => Except.error e
  | Except.ok major =>
    match parseNumber "minor" "Minor" p1 with
    | Except.error e => Except.error e
    | Except.ok minor =>
      match parseNumber "patch" "Patch" (cutMeta '-' (cutMeta '+' p2).2).2 with
      | Except.error e => Except.error e
      | Except.ok patch =>
        match parsePrerelease (cutMeta '-' (cutMeta '+' p2).2).1 with
        | Except.error e => Except.error e
        | Except.ok pre =>
          match parseBuild (cutMeta '+' p2).1 with
          | Except.error e => Except.error e
          | Except.ok bld => Except.ok ⟨major, minor, patch, pre, bld⟩

/-- The function `Parse`. -/
def Parse (s : List Char) : Except GoError Version :=
  if s.length = 0 then Except.error (GoError.New "Version string empty")
  else
    match strings.SplitN s '.' 3 with
    | [p0, p1, p2] => parseParts p0 p1 p2
    | _ => Except.error (GoError.New "No Major.Minor.Patch elements found")

/-- The function `Make`, an alias of `Parse`. -/
def Make (s : String) : Except GoError Version := Parse s.data

/-- The method `PRVersion.String`. -/
def PRVersion.String (v : PRVersion) : List Char :=
  if v.IsNum then strconv.FormatUint v.VersionNum else v.VersionStr.data

/-- The method `Version.String`. -/
def Version.String (v : Version) : String :=
  String.mk
    (strconv.FormatUint v.Major ++ '.' :: strconv.FormatUint v.Minor ++ '.' ::
      strconv.FormatUint v.Patch ++
      (if v.Pre.length > 0 then '-' :: strings.Join '.' (v.Pre.map PRVersion.String) else []) ++
      (if v.Build.length > 0 then '+' :: strings.Join '.' (v.Build.map String.data) else []))

/-- The method `PRVersion.Compare`. -/
def PRVersion.Compare (v o : PRVersion) : Int :=
  if v.IsNum && !o.IsNum then -1
  else if !v.IsNum && o.IsNum then 1
  else if v.IsNum && o.IsNum then
    if v.VersionNum = o.VersionNum then 0
    else if v.VersionNum > o.VersionNum then 1
    else -1
  else
    if v.VersionStr = o.VersionStr then 0
    else if v.VersionStr > o.VersionStr then 1
    else -1

/-- The loop of `Version.Compare` over the two prerelease lists, with the
comparison of the lengths that follows it. -/
def comparePre : List PRVersion → List PRVersion → Int
  | [], [] => 0
  | [], _ :: _ => -1
  | _ :: _, [] => 1
  | a :: as, b :: bs =>
    if PRVersion.Compare a b = 0 then comparePre as bs
    else if PRVersion.Compare a b = 1 then 1
    else -1

/-- The method `Version.Compare`. -/
def Version.Compare (v o : Version) : Int :=
  if v.Major ≠ o.Major then
    if v.Major > o.Major then 1 else -1
  else if v.Minor ≠ o.Minor then
    if v.Minor > o.Minor then 1 else -1
  else if v.Patch ≠ o.Patch then
    if v.Patch > o.Patch then 1 else -1
  else if v.Pre.length = 0 ∧ o.Pre.length = 0 then 0
  else if v.Pre.length = 0 ∧ o.Pre.length > 0 then 1
  else if v.Pre.length > 0 ∧ o.Pre.length = 0 then -1
  else comparePre v.Pre o.Pre

/-- The method `Version.LT`. -/
def Version.LT (v o : Version) : Bool := decide (v.Compare o = -1)

/-- The method `Version.GTE`. -/
def Version.GTE (v o : Version) : Bool := decide (v.Compare o ≥ 0)

end semver

/-! ## Go standard library: `sort`, and the parts taken as given -/

/-- The parts of the standard library that are not embedded. -/
structure Library where
  /-- What `sort.Sort` does to a `semver.Versions` of more than 12 elements:
  the pattern-defeating quicksort of the library. -/
  pdqsort : List semver.Version → List semver.Version
  /-- The function `strconv.Quote`. -/
  Quote : List Char → String

/-- One pass of the inner loop of `insertionSort`: `x` moves towards the
front while `Less` holds between it and its predecessor. The sorted part of
the slice is given back to front, so that its head is the predecessor. -/
def insertBack (x : semver.Version) : List semver.Version → List semver.Version
  | [] => [x]
  | y :: ys => if x.LT y then y :: insertBack x ys else x :: y :: ys

/-- The function `insertionSort` of the library on `semver.Versions`, whose
`Less(i, j)` is `vs[i].LT(vs[j])`: the elements are taken from left to right
and each is moved towards the front past the elements it is `Less` than. -/
def insertionSort (vs : List semver.Version) : List semver.Version :=
  (vs.foldl (fun done x => insertBack x done) []).reverse

/-- The call `sort.Sort(vs)` on `semver.Versions`: the library (Go 1.19 and
later) sorts a slice of at most 12 elements with `insertionSort` and a longer
one with its pattern-defeating quicksort, which is not stable and is taken as
given. -/
def sortSort (lib : Library) (vs : List semver.Version) : List semver.Version :=
  if vs.length ≤ 12 then insertionSort vs else lib.pdqsort vs

/-- What the library promises of its sort, stated for slices of more than 12
elements and for the versions that `LatestRelease` sorts (they have no
prerelease, and on them `Less` is a strict weak order): the result is a
permutation of the slice, in ascending order (no element is `Less` than an
earlier one). -/
structure SortsAscending (sort : List semver.Version → List semver.Version) : Prop where
  perm : ∀ vs, 12 < vs.length → (sort vs).Perm vs
  ascending : ∀ vs, 12 < vs.length → (∀ v ∈ vs, v.Pre = []) →
    (sort vs).Pairwise (fun a b => b.LT a = false)

/-- A slice in which no element is `Less` than another is left as it is: the
library finds no pair out of order in it (`choosePivot` counts no swap,
`partialInsertionSort` reaches the end) and moves nothing. -/
def KeepsTies (sort : List semver.Version → List semver.Version) : Prop :=
  ∀ vs, 12 < vs.length → (∀ a ∈ vs, ∀ b ∈ vs, a.LT b = false) → sort vs = vs

/-! ## `releases.go` -/

def releaseURL : String := "https://releases.hashicorp.com/"

set_option linter.dupNamespace false

structure Build where
  Name : String
  Version : String
  OS : String
  Arch : String
  Filename : String
  URL : String
deriving DecidableEq, Repr

structure Version where
  Name : String
  Version : String
  Shasums : String
  ShasumsSig : String
  Builds : List Build
deriving DecidableEq, Repr

/-- The zero value of `Version`, which indexing a map yields for a key that
is not in it. -/
def Version.zero : HashicorpReleases.Version := ⟨"", "", "", "", []⟩

/-- The loop of `Version.Build` over the builds. -/
def buildLoop : List Build → Option Build
  | [] => none
  | b :: bs => if b.OS = "linux" ∧ b.Arch = "amd64" then some b else buildLoop bs

/-- The method `Version.Build` on a receiver that is not nil: a copy of the
first build that passes the test, or `none`, the nil pointer, when the loop
ends without one. -/
def Version.Build (v : HashicorpReleases.Version) : Option HashicorpReleases.Build :=
  buildLoop v.Builds

structure Release where
  Name : String
  Versions : List (String × Version)
  versions : Option (List semver.Version)
deriving DecidableEq, Repr

/-- The expression `m[key]` on a `map[string]Version`. -/
def mapIndex (m : List (String × Version)) (key : String) : Version :=
  (m.lookup key).getD Version.zero

/-- The loop `for v := range r.Versions` of `LatestRelease`: the slice `vs`
and the text printed so far, after the keys of `m` have been visited. -/
def rangeVersions (lib : Library) : List (String × Version) → List semver.Version →
    String → List semver.Version × String
  | [], vs, out => (vs, out)
  | (v, _) :: rest, vs, out =>
    match semver.Make v with
    | Except.error err =>
      rangeVersions lib rest vs
        (out ++ ("Failed to parse version " ++ v ++ ": " ++ err.Error lib.Quote))
    | Except.ok vp =>
      if vp.Pre.length > 0 then rangeVersions lib rest vs out
      else rangeVersions lib rest (vs ++ [vp]) out

/-- The block `if r.versions == nil` of `LatestRelease`: the receiver after
it and the text printed in it. -/
def Release.fill (r : Release) (lib : Library) : Release × String :=
  match r.versions with
  | none =>
    let vs := List.replicate r.Versions.length semver.Version.zero
    let res := rangeVersions lib r.Versions vs ""
    ({ r with versions := some (sortSort lib res.1) }, res.2)
  | some _ => (r, "")

/-- The length of a slice, zero for the nil slice. -/
def len (s : Option (List semver.Version)) : Nat := (s.getD []).length

/-- The key that the last statements of `LatestRelease` look up in
`r.Versions`, `none` when the function returns nil before. -/
def Release.latestKey (r : Release) : Option String :=
  if h : len r.versions < 1 then none
  else some ((r.versions.getD []).get ⟨len r.versions - 1, by unfold len at *; omega⟩).String

/-- What a call of `LatestRelease` leaves behind: the pointer returned (`none`
is nil), the receiver after the call and the text printed. -/
structure Called where
  ret : Option Version
  r : Release
  stdout : String
deriving DecidableEq, Repr

/-- The method `Release.LatestRelease`. -/
def Release.LatestRelease (r : Release) (lib : Library) (includePre : Bool) : Called :=
  let _ := includePre
  let filled := r.fill lib
  ⟨filled.1.latestKey.map (mapIndex filled.1.Versions), filled.1, filled.2⟩

/-- The variable `args`. -/
structure Args where
  Product : String
  Version : String
  URL : Bool
deriving DecidableEq, Repr

/-- The document that `json.NewDecoder(resp.Body).Decode(&r)` reads into the
exported fields of a `Release`. -/
structure Index where
  Name : String
  Versions : List (String × Version)
deriving DecidableEq, Repr

/-- The network as `fetchRelease` sees it: for a URL, the error of `http.Get`
or else the outcome of decoding the body, an error or the document. -/
abbrev Network := String → Except String (Except String Index)

/-- The function `fetchRelease`. -/
def fetchRelease (net : Network) (product : String) : Except String Release :=
  let url := releaseURL ++ product ++ "/index.json"
  match net url with
  | Except.error err => Except.error ("Failed to fetch from " ++ url ++ ": " ++ err)
  | Except.ok (Except.error err) => Except.error err
  | Except.ok (Except.ok doc) => Except.ok ⟨doc.Name, doc.Versions, none⟩

/-- How a run of `main` ends: `os.Exit(code)`, or the run-time panic of a
nil pointer dereference, which `main` does not recover from. -/
inductive Exit where
  | status (code : Nat)
  | nilDereference
deriving DecidableEq, Repr

/-- A run of `main`: the text written to standard output and how it ends. -/
structure Run where
  stdout : String
  exit : Exit
deriving DecidableEq, Repr

/-- The function `main`, after `arg.MustParse` has filled `args`. When
`LatestRelease` returns nil, the call `v.Build()` reads `v.Builds` through
the nil pointer. -/
def main (lib : Library) (net : Network) (args : Args) : Run :=
  match fetchRelease net args.Product with
  | Except.error err =>
    ⟨"Failed to fetch releases for " ++ args.Product ++ ": " ++ err, Exit.status 1⟩
  | Except.ok r =>
    let c := r.LatestRelease lib false
    match c.ret with
    | none => ⟨c.stdout, Exit.nilDereference⟩
    | some v =>
      let b := v.Build
      let out :=
        match b with
        | some b => if args.URL then c.stdout ++ (b.URL ++ "\n") else c.stdout
        | none => c.stdout
      if v.Version ≠ args.Version then ⟨out, Exit.status 1⟩ else ⟨out, Exit.status 0⟩

/-! ## What the loop of `LatestRelease` computes -/

/-- The candidate that a key stands for: the parsed version when `Make`
accepts the key and the version has no prerelease, and none otherwise. -/
def stableVersion (key : String) : Option semver.Version :=
  match semver.Make key with
  | Except.error _ => none
  | Except.ok vp => if vp.Pre.length > 0 then none else some vp

/-- The candidates of a mapping: one for each key that is accepted without
prerelease, in iteration order. -/
def stableVersions (m : List (String × Version)) : List semver.Version :=
  m.filterMap (fun kv => stableVersion kv.1)

/-- The warning for a key: the text of the `Printf` in the loop when `Make`
rejects the key, and nothing otherwise. -/
def parseWarning (lib : Library) (key : String) : String :=
  match semver.Make key with
  | Except.error err => "Failed to parse version " ++ key ++ ": " ++ err.Error lib.Quote
  | Except.ok _ => ""

/-- The warnings of a mapping: one for each key that `Make` rejects, in
iteration order, without a newline. -/
def parseWarnings (lib : Library) : List (String × Version) → String
  | [] => ""
  | (k, _) :: rest => parseWarning lib k ++ parseWarnings lib rest

/-- Whether no warning of the mapping quotes a string: every key that `Make`
rejects is rejected with a value of `errors.New`. -/
def warnsWithoutQuote (m : List (String × Version)) : Bool :=
  m.all (fun kv =>
    match semver.Make kv.1 with
    | Except.error (GoError.New _) => true
    | Except.error _ => false
    | Except.ok _ => true)

/-! ## Sample data -/

def linux130 : Build :=
  ⟨"consul", "1.3.0", "linux", "amd64", "consul_1.3.0_linux_amd64.zip",
    "https://releases.hashicorp.com/consul/1.3.0/consul_1.3.0_linux_amd64.zip"⟩

def mirror130 : Build :=
  ⟨"consul", "1.3.0", "linux", "amd64", "consul_1.3.0_linux_amd64.zip",
    "https://mirror.example/consul_1.3.0_linux_amd64.zip"⟩

def darwin130 : Build :=
  ⟨"consul", "1.3.0", "darwin", "amd64", "consul_1.3.0_darwin_amd64.zip",
    "https://releases.hashicorp.com/consul/1.3.0/consul_1.3.0_darwin_amd64.zip"⟩

def version120 : Version := ⟨"consul", "1.2.0", "consul_1.2.0_SHA256SUMS", "", []⟩

def version130 : Version :=
  ⟨"consul", "1.3.0", "consul_1.3.0_SHA256SUMS", "", [darwin130, linux130, mirror130]⟩

def version200beta : Version := ⟨"consul", "2.0.0-beta", "consul_2.0.0-beta_SHA256SUMS", "", []⟩

def versionNightly : Version := ⟨"consul", "nightly", "", "", [linux130]⟩

/-- A release with the keys 1.2.0 and 1.3.0. -/
def twoStable : Release := ⟨"consul", [("1.2.0", version120), ("1.3.0", version130)], none⟩

/-- A release with the keys 1.2.0, 1.3.0 and 2.0.0-beta. -/
def withBeta : Release :=
  ⟨"consul", [("2.0.0-beta", version200beta), ("1.2.0", version120), ("1.3.0", version130)],
    none⟩

/-- A release with a malformed key, a prerelease key and a stable key. -/
def mixed : Release :=
  ⟨"consul", [("nightly", versionNightly), ("2.0.0-beta", version200beta),
    ("1.3.0", version130)], none⟩

/-- A network that serves an index with a malformed key and the key 1.3.0. -/
def mixedNet : Network :=
  fun _ => Except.ok (Except.ok ⟨"consul", [("nightly", versionNightly), ("1.3.0", version130)]⟩)

/-- A network that serves an index without versions. -/
def emptyNet : Network := fun _ => Except.ok (Except.ok ⟨"consul", []⟩)

/-- A network on which `http.Get` fails. -/
def downNet : Network := fun _ => Except.error "dial tcp: connection refused"

/-- A library for the examples: it sorts every slice with `insertionSort` and
quotes without escapes. -/
def plainLibrary : Library := ⟨insertionSort, fun s => "\"" ++ String.mk s ++ "\""⟩

/-- A release with seven keys that tie at 0.0.0, for which fourteen elements
are sorted. -/
def sevenTied : Release :=
  ⟨"consul", [("0.0.0+a", version120), ("0.0.0+b", version120), ("0.0.0+c", version120),
    ("0.0.0+d", version120), ("0.0.0+e", version120), ("0.0.0+f", version120),
    ("0.0.0+g", version130)], none⟩

/-! ## Auxiliary facts: `strings` -/

theorem strings.cutAt_some (sep : Char) :
    ∀ (s a b : List Char), strings.cutAt sep s = some (a, b) → s = a ++ sep :: b := by
  intro s
  induction s with
  | nil => intro a b h; simp [strings.cutAt] at h
  | cons c cs ih =>
    intro a b h
    unfold strings.cutAt at h
    by_cases hc : c = sep
    · simp only [hc, if_true, Option.some.injEq, Prod.mk.injEq] at h
      obtain ⟨rfl, rfl⟩ := h
      simp [hc]
    · simp only [hc, if_false] at h
      cases hcut : strings.cutAt sep cs with
      | none => simp [hcut] at h
      | some ab =>
        obtain ⟨a1, b1⟩ := ab
        simp only [hcut, Option.some.injEq, Prod.mk.injEq] at h
        obtain ⟨rfl, rfl⟩ := h
        rw [ih a1 b1 hcut]
        simp

theorem strings.SplitN_ne_nil (sep : Char) :
    ∀ (n : Nat) (s : List Char), strings.SplitN s sep (n + 1) ≠ [] := by
  intro n
  cases n with
  | zero => intro s; simp [strings.SplitN]
  | succ n =>
    intro s
    unfold strings.SplitN
    cases strings.cutAt sep s with
    | none => simp
    | some ab => simp

theorem strings.Join_cons (sep : Char) (p : List Char) (ps : List (List Char))
    (h : ps ≠ []) : strings.Join sep (p :: ps) = p ++ sep :: strings.Join sep ps := by
  cases ps with
  | nil => exact absurd rfl h
  | cons q qs => rfl

theorem strings.Join_SplitN (sep : Char) :
    ∀ (n : Nat) (s : List Char), strings.Join sep (strings.SplitN s sep (n + 1)) = s := by
  intro n
  induction n with
  | zero => intro s; simp [strings.SplitN, strings.Join]
  | succ n ih =>
    intro s
    unfold strings.SplitN
    cases hcut : strings.cutAt sep s with
    | none => simp [strings.Join]
    | some ab =>
      obtain ⟨a, b⟩ := ab
      simp only []
      rw [strings.Join_cons sep a _ (strings.SplitN_ne_nil sep n b), ih b]
      exact (strings.cutAt_some sep s a b hcut).symm

theorem strings.Join_Split (sep : Char) (s : List Char) :
    strings.Join sep (strings.Split s sep) = s :=
  strings.Join_SplitN sep s.length s

theorem strings.Split_ne_nil (sep : Char) (s : List Char) : strings.Split s sep ≠ [] :=
  strings.SplitN_ne_nil sep s.length s

/-- Three pieces come out of `SplitN(s, sep, 3)` exactly when `s` is the
three pieces with a separator between them. -/
theorem strings.SplitN_three (sep : Char) (s p0 p1 p2 : List Char)
    (h : strings.SplitN s sep 3 = [p0, p1, p2]) : s = p0 ++ sep :: (p1 ++ sep :: p2) := by
  have h3 : strings.SplitN s sep 3 = strings.SplitN s sep (1 + 2) := rfl
  rw [h3] at h
  unfold strings.SplitN at h
  cases hcut : strings.cutAt sep s with
  | none => simp [hcut] at h
  | some ab =>
    obtain ⟨a, b⟩ := ab
    simp only [hcut] at h
    have h2 : strings.SplitN b sep (1 + 1) = strings.SplitN b sep (0 + 2) := rfl
    rw [h2] at h
    unfold strings.SplitN at h
    cases hcut2 : strings.cutAt sep b with
    | none => simp [hcut2] at h
    | some ab2 =>
      obtain ⟨a2, b2⟩ := ab2
      simp only [hcut2, strings.SplitN, List.cons.injEq, and_true] at h
      obtain ⟨rfl, rfl, rfl⟩ := h
      rw [strings.cutAt_some sep s a b hcut, strings.cutAt_some sep b a2 b2 hcut2]

/-! ## Auxiliary facts: `strconv` -/

theorem strconv.toDigitsCore_fuel :
    ∀ (f1 f2 n : Nat) (acc : List Char), n < f1 → n < f2 →
      Nat.toDigitsCore 10 f1 n acc = Nat.toDigitsCore 10 f2 n acc := by
  intro f1
  induction f1 with
  | zero => intro f2 n acc h; omega
  | succ f1 ih =>
    intro f2 n acc h1 h2
    cases f2 with
    | zero => omega
    | succ f2 =>
      simp only [Nat.toDigitsCore]
      by_cases h0 : n / 10 = 0
      · simp [h0]
      · simp only [h0, if_false]
        exact ih f2 (n / 10) _ (by omega) (by omega)

theorem strconv.toDigitsCore_acc :
    ∀ (f n : Nat) (acc : List Char),
      Nat.toDigitsCore 10 f n acc = Nat.toDigitsCore 10 f n [] ++ acc := by
  intro f
  induction f with
  | zero => intro n acc; simp [Nat.toDigitsCore]
  | succ f ih =>
    intro n acc
    simp only [Nat.toDigitsCore]
    by_cases h0 : n / 10 = 0
    · simp [h0]
    · simp only [h0, if_false]
      rw [ih (n / 10) (Nat.digitChar (n % 10) :: acc), ih (n / 10) [Nat.digitChar (n % 10)]]
      simp

theorem strconv.FormatUint_small (n : Nat) (h : n < 10) :
    strconv.FormatUint n = [Nat.digitChar n] := by
  have h0 : n / 10 = 0 := by omega
  have h1 : n % 10 = n := by omega
  simp [strconv.FormatUint, Nat.toDigits, Nat.toDigitsCore, h0, h1]

theorem strconv.FormatUint_step (n d : Nat) (hn : 0 < n) (hd : d < 10) :
    strconv.FormatUint (10 * n + d) = strconv.FormatUint n ++ [Nat.digitChar d] := by
  have h0 : (10 * n + d) / 10 = n := by omega
  have h1 : (10 * n + d) % 10 = d := by omega
  have hne : ¬ n = 0 := by omega
  have hstep : Nat.toDigitsCore 10 (10 * n + d + 1) (10 * n + d) [] =
      Nat.toDigitsCore 10 (10 * n + d) n [Nat.digitChar d] := by
    simp only [Nat.toDigitsCore, h0, h1, hne, if_false]
  unfold strconv.FormatUint Nat.toDigits
  rw [hstep, strconv.toDigitsCore_acc]
  rw [strconv.toDigitsCore_fuel (10 * n + d) (n + 1) n [] (by omega) (by omega)]

theorem strconv.digit_facts :
    ∀ c ∈ semver.numbers, Nat.digitChar (strconv.digitVal c) = c ∧ strconv.digitVal c < 10 ∧
      (c ≠ '0' → 0 < strconv.digitVal c) ∧ c.isDigit = true := by
  decide

theorem strconv.decimalValue_snoc (s : List Char) (c : Char) :
    strconv.decimalValue (s ++ [c]) = 10 * strconv.decimalValue s + strconv.digitVal c := by
  simp [strconv.decimalValue, List.foldl_append]

theorem strconv.foldl_ge (s : List Char) :
    ∀ a : Nat, a ≤ s.foldl (fun n c => 10 * n + strconv.digitVal c) a := by
  induction s with
  | nil => intro a; simp
  | cons c cs ih =>
    intro a
    simp only [List.foldl_cons]
    exact le_trans (by omega) (ih (10 * a + strconv.digitVal c))

theorem strconv.decimalValue_pos (s : List Char) (hd : ∀ c ∈ s, c ∈ semver.numbers)
    (hne : s ≠ []) (hz : s.head? ≠ some '0') : 0 < strconv.decimalValue s := by
  cases s with
  | nil => exact absurd rfl hne
  | cons c cs =>
    have hc := strconv.digit_facts c (hd c (List.mem_cons_self c cs))
    have hc0 : c ≠ '0' := by
      intro h
      apply hz
      simp [h]
    have := strconv.foldl_ge cs (10 * 0 + strconv.digitVal c)
    have h1 := hc.2.2.1 hc0
    simp only [strconv.decimalValue, List.foldl_cons]
    omega

/-- Printing the value of a decimal numeral without leading zeroes gives the
numeral back. -/
theorem strconv.FormatUint_decimalValue :
    ∀ s : List Char, (∀ c ∈ s, c ∈ semver.numbers) → s ≠ [] →
      (1 < s.length → s.head? ≠ some '0') →
      strconv.FormatUint (strconv.decimalValue s) = s := by
  intro s
  induction s using List.reverseRecOn with
  | nil => intro _ h; exact absurd rfl h
  | append_singleton t c ih =>
    intro hd _ hz
    have hc := strconv.digit_facts c (hd c (by simp))
    rw [strconv.decimalValue_snoc]
    by_cases ht : t = []
    · subst ht
      simp only [strconv.decimalValue, List.foldl_nil, Nat.mul_zero, Nat.zero_add,
        List.nil_append]
      rw [strconv.FormatUint_small _ hc.2.1, hc.1]
    · have hdt : ∀ c ∈ t, c ∈ semver.numbers := fun x hx => hd x (by simp [hx])
      have hlen : 1 < (t ++ [c]).length := by
        have : 0 < t.length := List.length_pos.mpr ht
        simp
        omega
      have hhead : t.head? ≠ some '0' := by
        have := hz hlen
        cases t with
        | nil => exact absurd rfl ht
        | cons x xs => simpa using this
      have hpos := strconv.decimalValue_pos t hdt ht hhead
      rw [strconv.FormatUint_step _ _ hpos hc.2.1, ih hdt ht (fun _ => hhead), hc.1]

theorem strconv.ParseUint_ok (s : List Char) (n : Nat)
    (h : strconv.ParseUint s = Except.ok n) : s ≠ [] ∧ n = strconv.decimalValue s := by
  unfold strconv.ParseUint at h
  split at h
  · cases h
  · rename_i h1
    split at h
    · cases h
    · simp only [Except.ok.injEq] at h
      refine ⟨?_, h.symm⟩
      intro hs
      apply h1
      left
      simp [hs]

/-! ## Auxiliary facts: `semver` -/

theorem semver.containsOnly_mem (s set : List Char) (h : semver.containsOnly s set = true) :
    ∀ c ∈ s, c ∈ set := by
  intro c hc
  unfold semver.containsOnly at h
  rw [List.all_eq_true] at h
  have := h c hc
  simpa using this

theorem semver.parseNumber_ok (lower upper : String) (part : List Char) (n : Nat)
    (h : semver.parseNumber lower upper part = Except.ok n) :
    strconv.FormatUint n = part := by
  unfold semver.parseNumber at h
  split at h
  · cases h
  · rename_i hc
    split at h
    · cases h
    · rename_i hz
      obtain ⟨hne, rfl⟩ := strconv.ParseUint_ok part n h
      have hc2 : semver.containsOnly part semver.numbers = true := by simpa using hc
      apply strconv.FormatUint_decimalValue part (semver.containsOnly_mem _ _ hc2) hne
      intro hlen hhead
      apply hz
      simp [semver.hasLeadingZeroes, hlen, hhead]

theorem semver.parsePrerelease_length :
    ∀ (l : List (List Char)) (pre : List semver.PRVersion),
      semver.parsePrerelease l = Except.ok pre → pre.length = l.length := by
  intro l
  induction l with
  | nil => intro pre h; simp only [semver.parsePrerelease, Except.ok.injEq] at h; subst h; rfl
  | cons p ps ih =>
    intro pre h
    unfold semver.parsePrerelease at h
    cases hp : semver.NewPRVersion p with
    | error e => simp [hp] at h
    | ok pr =>
      cases hps : semver.parsePrerelease ps with
      | error e => simp [hp, hps] at h
      | ok prs =>
        simp only [hp, hps, Except.ok.injEq] at h
        subst h
        simp [ih prs hps]

theorem semver.parseBuild_data :
    ∀ (l : List (List Char)) (bld : List String),
      semver.parseBuild l = Except.ok bld → bld.map String.data = l := by
  intro l
  induction l with
  | nil => intro bld h; simp only [semver.parseBuild, Except.ok.injEq] at h; subst h; rfl
  | cons b bs ih =>
    intro bld h
    unfold semver.parseBuild at h
    split at h
    · cases h
    · split at h
      · cases h
      · cases hbs : semver.parseBuild bs with
        | error e => simp [hbs] at h
        | ok rest =>
          simp only [hbs, Except.ok.injEq] at h
          subst h
          simp [ih rest hbs]

/-- A version without prerelease that `parseParts` accepts prints as the
three parts it was read from, with dots between them. -/
theorem semver.parseParts_String (p0 p1 p2 : List Char) (v : semver.Version)
    (h : semver.parseParts p0 p1 p2 = Except.ok v) (hpre : v.Pre = []) :
    v.String = String.mk (p0 ++ '.' :: (p1 ++ '.' :: p2)) := by
  unfold semver.parseParts at h
  cases h0 : semver.parseNumber "major" "Major" p0 with
  | error e => simp [h0] at h
  | ok major =>
  cases h1 : semver.parseNumber "minor" "Minor" p1 with
  | error e => simp [h0, h1] at h
  | ok minor =>
  cases h2 : semver.parseNumber "patch" "Patch"
      (semver.cutMeta '-' (semver.cutMeta '+' p2).2).2 with
  | error e => simp [h0, h1, h2] at h
  | ok patch =>
  cases h3 : semver.parsePrerelease (semver.cutMeta '-' (semver.cutMeta '+' p2).2).1 with
  | error e => simp [h0, h1, h2, h3] at h
  | ok pre =>
  cases h4 : semver.parseBuild (semver.cutMeta '+' p2).1 with
  | error e => simp [h0, h1, h2, h3, h4] at h
  | ok bld =>
  simp only [h0, h1, h2, h3, h4, Except.ok.injEq] at h
  subst h
  simp only at hpre
  subst hpre
  have e0 := semver.parseNumber_ok _ _ _ _ h0
  have e1 := semver.parseNumber_ok _ _ _ _ h1
  have e2 := semver.parseNumber_ok _ _ _ _ h2
  have e3 := semver.parsePrerelease_length _ _ h3
  have e4 := semver.parseBuild_data _ _ h4
  -- no prerelease was cut off
  have hminus : (semver.cutMeta '-' (semver.cutMeta '+' p2).2).2 = (semver.cutMeta '+' p2).2 := by
    unfold semver.cutMeta at e3 ⊢
    cases hc : strings.cutAt '-' (match strings.cutAt '+' p2 with
        | some (a, b) => (strings.Split b '.', a)
        | none => ([], p2)).2 with
    | none => rfl
    | some ab =>
      exfalso
      obtain ⟨a, b⟩ := ab
      simp only [hc] at e3
      have := strings.Split_ne_nil '.' b
      have h0 : (strings.Split b '.').length = 0 := by simpa using e3.symm
      exact this (List.length_eq_zero.mp h0)
  rw [hminus] at e2
  unfold semver.Version.String
  simp only [e0, e1, e2, List.length_nil, gt_iff_lt, lt_self_iff_false, if_false,
    List.append_nil]
  congr 1
  unfold semver.cutMeta at e4 ⊢
  cases hc : strings.cutAt '+' p2 with
  | none =>
    simp only [hc] at e4 ⊢
    have : bld = [] := by simpa using e4
    subst this
    simp
  | some ab =>
    obtain ⟨a, b⟩ := ab
    simp only [hc] at e4 ⊢
    have hlen : 0 < bld.length := by
      have h1 : bld.length = (strings.Split b '.').length := by rw [← e4]; simp
      have h2 := List.length_pos.mpr (strings.Split_ne_nil '.' b)
      omega
    simp only [hlen, if_true, e4, strings.Join_Split]
    rw [strings.cutAt_some '+' p2 a b hc]
    simp

/-- Round trip: a key that `Make` accepts as a version without prerelease is
the text that `String` prints for that version. -/
theorem semver.Make_String (key : String) (v : semver.Version)
    (h : semver.Make key = Except.ok v) (hpre : v.Pre = []) : v.String = key := by
  unfold semver.Make semver.Parse at h
  split at h
  · cases h
  · split at h
    · rename_i p0 p1 p2 hsplit
      rw [semver.parseParts_String p0 p1 p2 v h hpre,
        ← strings.SplitN_three '.' key.data p0 p1 p2 hsplit]
    · cases h

/-! ## Auxiliary facts: precedence of versions without prerelease -/

theorem semver.LT_iff (v o : semver.Version) (hv : v.Pre = []) (ho : o.Pre = []) :
    v.LT o = true ↔
      (v.Major < o.Major ∨ (v.Major = o.Major ∧
        (v.Minor < o.Minor ∨ (v.Minor = o.Minor ∧ v.Patch < o.Patch)))) := by
  unfold semver.Version.LT semver.Version.Compare
  simp only [hv, ho, List.length_nil, and_self, if_true, decide_eq_true_eq]
  split_ifs <;> simp <;> omega

theorem semver.GTE_iff (v o : semver.Version) (hv : v.Pre = []) (ho : o.Pre = []) :
    v.GTE o = true ↔ v.LT o = false := by
  unfold semver.Version.LT semver.Version.GTE semver.Version.Compare
  simp only [hv, ho, List.length_nil, and_self, if_true, decide_eq_true_eq,
    decide_eq_false_iff_not]
  split_ifs <;> simp

theorem semver.LT_zero (v : semver.Version) (hv : v.Pre = []) :
    v.LT semver.Version.zero = false := by
  have h := semver.LT_iff v semver.Version.zero hv rfl
  cases hlt : v.LT semver.Version.zero with
  | false => rfl
  | true =>
    have := h.mp hlt
    simp [semver.Version.zero] at this

/-! ## Auxiliary facts: the sort -/

theorem insertBack_mem (x y : semver.Version) :
    ∀ l : List semver.Version, y ∈ insertBack x l ↔ y = x ∨ y ∈ l := by
  intro l
  induction l with
  | nil => simp [insertBack]
  | cons z zs ih =>
    unfold insertBack
    split
    · simp only [List.mem_cons, ih]
      tauto
    · simp

/-- The sorted part stays sorted: read back to front, no element is `Less`
than a later one. -/
theorem insertBack_sorted (x : semver.Version) :
    ∀ l : List semver.Version, x.Pre = [] → (∀ y ∈ l, y.Pre = []) →
      l.Pairwise (fun a b => a.LT b = false) →
      (insertBack x l).Pairwise (fun a b => a.LT b = false) := by
  intro l
  induction l with
  | nil => intro _ _ _; simp [insertBack]
  | cons z zs ih =>
    intro hx hl hs
    have hz : z.Pre = [] := hl z (List.mem_cons_self z zs)
    have hzs : ∀ y ∈ zs, y.Pre = [] := fun y hy => hl y (List.mem_cons_of_mem z hy)
    rw [List.pairwise_cons] at hs
    unfold insertBack
    split
    · rename_i hlt
      rw [List.pairwise_cons]
      refine ⟨?_, ih hx hzs hs.2⟩
      intro y hy
      rcases (insertBack_mem x y zs).mp hy with rfl | hy
      · have h1 := (semver.LT_iff y z hx hz).mp hlt
        cases h2 : z.LT y with
        | false => rfl
        | true =>
          have h3 := (semver.LT_iff z y hz hx).mp h2
          omega
      · exact hs.1 y hy
    · rename_i hlt
      rw [List.pairwise_cons]
      refine ⟨?_, List.pairwise_cons.mpr hs⟩
      intro y hy
      rcases List.mem_cons.mp hy with rfl | hy
      · simpa using hlt
      · have hy0 : y.Pre = [] := hzs y hy
        have h1 := hs.1 y hy
        cases h2 : x.LT y with
        | false => rfl
        | true =>
          exfalso
          have h3 := (semver.LT_iff x y hx hy0).mp h2
          have h4 : ¬ (z.Major < y.Major ∨ (z.Major = y.Major ∧
              (z.Minor < y.Minor ∨ (z.Minor = y.Minor ∧ z.Patch < y.Patch)))) := by
            intro h
            have := (semver.LT_iff z y hz hy0).mpr h
            rw [h1] at this
            cases this
          have h5 : ¬ (x.Major < z.Major ∨ (x.Major = z.Major ∧
              (x.Minor < z.Minor ∨ (x.Minor = z.Minor ∧ x.Patch < z.Patch)))) := by
            intro h
            exact hlt ((semver.LT_iff x z hx hz).mpr h)
          omega

theorem foldl_insertBack_mem (y : semver.Version) :
    ∀ l done : List semver.Version,
      y ∈ l.foldl (fun done x => insertBack x done) done ↔ y ∈ l ∨ y ∈ done := by
  intro l
  induction l with
  | nil => intro done; simp
  | cons x xs ih =>
    intro done
    simp only [List.foldl_cons, ih, insertBack_mem, List.mem_cons]
    tauto

theorem foldl_insertBack_sorted :
    ∀ l done : List semver.Version, (∀ y ∈ l, y.Pre = []) → (∀ y ∈ done, y.Pre = []) →
      done.Pairwise (fun a b => a.LT b = false) →
      (l.foldl (fun done x => insertBack x done) done).Pairwise (fun a b => a.LT b = false) := by
  intro l
  induction l with
  | nil => intro done _ _ h; simpa using h
  | cons x xs ih =>
    intro done hl hd hs
    simp only [List.foldl_cons]
    apply ih
    · exact fun y hy => hl y (List.mem_cons_of_mem x hy)
    · intro y hy
      rcases (insertBack_mem x y done).mp hy with rfl | hy
      · exact hl y (List.mem_cons_self y xs)
      · exact hd y hy
    · exact insertBack_sorted x done (hl x (List.mem_cons_self x xs)) hd hs

theorem insertBack_perm (x : semver.Version) :
    ∀ l : List semver.Version, (insertBack x l).Perm (x :: l) := by
  intro l
  induction l with
  | nil => simp [insertBack]
  | cons y ys ih =>
    unfold insertBack
    split
    · exact (List.Perm.cons y ih).trans (List.Perm.swap x y ys)
    · exact List.Perm.refl _

theorem foldl_insertBack_perm :
    ∀ l done : List semver.Version,
      (l.foldl (fun done x => insertBack x done) done).Perm (l ++ done) := by
  intro l
  induction l with
  | nil => intro done; simp
  | cons x xs ih =>
    intro done
    simp only [List.foldl_cons]
    refine (ih (insertBack x done)).trans ?_
    refine (List.Perm.append_left xs (insertBack_perm x done)).trans ?_
    simp

theorem foldl_insertBack_tied_of_all :
    ∀ l done : List semver.Version,
      (∀ a ∈ l ++ done, ∀ b ∈ l ++ done, a.LT b = false) →
      l.foldl (fun done x => insertBack x done) done = l.reverse ++ done := by
  intro l
  induction l with
  | nil => intro done _; simp
  | cons x xs ih =>
    intro done h
    simp only [List.foldl_cons]
    have hx : insertBack x done = x :: done := by
      cases done with
      | nil => rfl
      | cons y ys =>
        unfold insertBack
        rw [h x (by simp) y (by simp)]
        simp
    rw [hx, ih (x :: done)]
    · simp
    · intro a ha b hb
      apply h
      · simp only [List.mem_append, List.mem_cons] at ha ⊢
        tauto
      · simp only [List.mem_append, List.mem_cons] at hb ⊢
        tauto

theorem insertionSort_perm (vs : List semver.Version) : (insertionSort vs).Perm vs := by
  unfold insertionSort
  refine (List.reverse_perm _).trans ?_
  simpa using foldl_insertBack_perm vs []

theorem insertionSort_ascending (vs : List semver.Version) (hpre : ∀ v ∈ vs, v.Pre = []) :
    (insertionSort vs).Pairwise (fun a b => b.LT a = false) := by
  unfold insertionSort
  rw [List.pairwise_reverse]
  exact foldl_insertBack_sorted vs [] hpre (by simp) List.Pairwise.nil

theorem insertionSort_tied (vs : List semver.Version)
    (h : ∀ a ∈ vs, ∀ b ∈ vs, a.LT b = false) : insertionSort vs = vs := by
  unfold insertionSort
  rw [foldl_insertBack_tied_of_all vs [] (by simpa using h)]
  simp

theorem sortSort_perm (lib : Library)
    (hperm : ∀ vs, 12 < vs.length → (lib.pdqsort vs).Perm vs) (vs : List semver.Version) :
    (sortSort lib vs).Perm vs := by
  unfold sortSort
  split
  · exact insertionSort_perm vs
  · exact hperm vs (by omega)

theorem sortSort_ascending (lib : Library) (hsort : SortsAscending lib.pdqsort)
    (vs : List semver.Version) (hpre : ∀ v ∈ vs, v.Pre = []) :
    (sortSort lib vs).Pairwise (fun a b => b.LT a = false) := by
  unfold sortSort
  split
  · exact insertionSort_ascending vs hpre
  · exact hsort.ascending vs (by omega) hpre

theorem sortSort_tied (lib : Library) (hties : KeepsTies lib.pdqsort)
    (vs : List semver.Version) (h : ∀ a ∈ vs, ∀ b ∈ vs, a.LT b = false) :
    sortSort lib vs = vs := by
  unfold sortSort
  split
  · exact insertionSort_tied vs h
  · exact hties vs (by omega) h

/-- The function `insertionSort` keeps what the library promises of its sort. -/
theorem insertionSort_sortsAscending : SortsAscending insertionSort :=
  ⟨fun vs _ => insertionSort_perm vs, fun vs _ hpre => insertionSort_ascending vs hpre⟩

theorem insertionSort_keepsTies : KeepsTies insertionSort :=
  fun vs _ h => insertionSort_tied vs h

/-- The last element of an ascending slice is not `Less` than any element. -/
theorem last_not_less (s : List semver.Version) (h : semver.Version)
    (hpre : ∀ v ∈ s, v.Pre = []) (hasc : s.Pairwise (fun a b => b.LT a = false))
    (hlast : s.getLast? = some h) : ∀ y ∈ s, h.LT y = false := by
  obtain ⟨ys, rfl⟩ := List.getLast?_eq_some_iff.mp hlast
  intro y hy
  rcases List.mem_append.mp hy with hy | hy
  · exact (List.pairwise_append.mp hasc).2.2 y hy h (by simp)
  · have : y = h := by simpa using hy
    subst this
    have hy0 : y.Pre = [] := hpre y (by simp)
    cases hlt : y.LT y with
    | false => rfl
    | true =>
      have := (semver.LT_iff y y hy0 hy0).mp hlt
      omega

/-! ## Auxiliary facts: `LatestRelease` -/

theorem stableVersion_some (key : String) (v : semver.Version) :
    stableVersion key = some v ↔ semver.Make key = Except.ok v ∧ v.Pre = [] := by
  unfold stableVersion
  cases hk : semver.Make key with
  | error err => simp
  | ok vp =>
    simp only [Except.ok.injEq]
    split
    · rename_i hpre
      constructor
      · intro h; cases h
      · rintro ⟨rfl, h0⟩
        rw [h0] at hpre
        simp at hpre
    · rename_i hpre
      have hp : vp.Pre = [] := by
        cases hvp : vp.Pre with
        | nil => rfl
        | cons a as => rw [hvp] at hpre; simp at hpre
      constructor
      · intro h
        cases h
        exact ⟨rfl, hp⟩
      · rintro ⟨rfl, _⟩
        rfl

theorem stableVersions_mem (v : semver.Version) (m : List (String × Version)) :
    v ∈ stableVersions m ↔ ∃ kv ∈ m, semver.Make kv.1 = Except.ok v ∧ v.Pre = [] := by
  unfold stableVersions
  rw [List.mem_filterMap]
  constructor
  · rintro ⟨kv, hkv, h⟩
    exact ⟨kv, hkv, (stableVersion_some kv.1 v).mp h⟩
  · rintro ⟨kv, hkv, h⟩
    exact ⟨kv, hkv, (stableVersion_some kv.1 v).mpr h⟩

theorem rangeVersions_eq (lib : Library) :
    ∀ (m : List (String × Version)) (vs : List semver.Version) (out : String),
      rangeVersions lib m vs out = (vs ++ stableVersions m, out ++ parseWarnings lib m) := by
  intro m
  induction m with
  | nil => intro vs out; simp [rangeVersions, stableVersions, parseWarnings]
  | cons kv rest ih =>
    intro vs out
    obtain ⟨k, val⟩ := kv
    unfold rangeVersions
    have hst : stableVersions ((k, val) :: rest) =
        (match stableVersion k with
          | some v => v :: stableVersions rest
          | none => stableVersions rest) := by
      unfold stableVersions
      rw [List.filterMap_cons]
      cases stableVersion k <;> rfl
    have hw : parseWarnings lib ((k, val) :: rest) =
        parseWarning lib k ++ parseWarnings lib rest := rfl
    rw [hst, hw]
    unfold stableVersion parseWarning
    cases hk : semver.Make k with
    | error err => simp only [ih, String.append_assoc]
    | ok vp =>
      simp only []
      split
      · rw [ih]
        simp
      · rw [ih]
        simp

/-- The receiver and the output of the first call, when the cache is nil. -/
theorem fill_of_nil (lib : Library) (r : Release) (hcache : r.versions = none) :
    r.fill lib = (⟨r.Name, r.Versions, some (sortSort lib
      (List.replicate r.Versions.length semver.Version.zero ++ stableVersions r.Versions))⟩,
      parseWarnings lib r.Versions) := by
  unfold Release.fill
  rw [hcache]
  simp only [rangeVersions_eq, String.empty_append]

theorem fill_of_some (lib : Library) (r : Release) (vs : List semver.Version)
    (hcache : r.versions = some vs) : r.fill lib = (r, "") := by
  unfold Release.fill
  rw [hcache]

theorem latestKey_eq (r : Release) :
    r.latestKey = ((r.versions.getD []).getLast?).map semver.Version.String := by
  unfold Release.latestKey len
  split
  · rename_i h
    have : r.versions.getD [] = [] := List.length_eq_zero.mp (by omega)
    rw [this]
    rfl
  · rename_i h
    rw [List.getLast?_eq_getElem?, List.getElem?_eq_getElem (by omega)]
    rfl

theorem cache_pre_nil (m : List (String × Version)) :
    ∀ y ∈ List.replicate m.length semver.Version.zero ++ stableVersions m, y.Pre = [] := by
  intro y hy
  rcases List.mem_append.mp hy with h | h
  · rw [(List.mem_replicate.mp h).2]
    rfl
  · exact ((stableVersions_mem y m).mp h).choose_spec.2.2

theorem lookup_of_key (m : List (String × Version)) (kv : String × Version) (h : kv ∈ m) :
    ∃ val, m.lookup kv.1 = some val := by
  have : (m.lookup kv.1).isSome := by
    rw [List.lookup_isSome_iff]
    exact ⟨kv, h, by simp⟩
  exact Option.isSome_iff_exists.mp this

/-- With a nil cache and at least one key that is accepted without prerelease,
the last element of the sorted slice is the parsed version of such a key and
is not `Less` than the parsed version of any such key. -/
theorem latest_of_stable (lib : Library) (hsort : SortsAscending lib.pdqsort)
    (hties : KeepsTies lib.pdqsort) (r : Release) (hcache : r.versions = none)
    (hne : stableVersions r.Versions ≠ []) :
    ∃ h, (r.fill lib).1.latestKey = some h.String ∧ h ∈ stableVersions r.Versions ∧
      ∀ y ∈ stableVersions r.Versions, h.LT y = false := by
  rw [fill_of_nil lib r hcache]
  simp only []
  rw [latestKey_eq]
  simp only [Option.getD_some]
  have hpre := cache_pre_nil r.Versions
  have hperm := sortSort_perm lib hsort.perm
    (List.replicate r.Versions.length semver.Version.zero ++ stableVersions r.Versions)
  have hasc := sortSort_ascending lib hsort
    (List.replicate r.Versions.length semver.Version.zero ++ stableVersions r.Versions) hpre
  have hpre2 : ∀ v ∈ sortSort lib (List.replicate r.Versions.length semver.Version.zero ++
      stableVersions r.Versions), v.Pre = [] := fun v hv => hpre v (hperm.mem_iff.mp hv)
  -- the sorted slice has a last element
  have hnil : sortSort lib (List.replicate r.Versions.length semver.Version.zero ++
      stableVersions r.Versions) ≠ [] := by
    intro h0
    have hlen := hperm.length_eq
    rw [h0] at hlen
    have hpos := List.length_pos.mpr hne
    simp at hlen
    omega
  obtain ⟨h, hlast⟩ := Option.isSome_iff_exists.mp (List.getLast?_isSome.mpr hnil)
  have hmax := last_not_less _ h hpre2 hasc hlast
  have hmem : h ∈ List.replicate r.Versions.length semver.Version.zero ++
      stableVersions r.Versions := hperm.mem_iff.mp (List.mem_of_getLast?_eq_some hlast)
  have hmaxS : ∀ y ∈ stableVersions r.Versions, h.LT y = false := fun y hy =>
    hmax y (hperm.mem_iff.mpr (List.mem_append_right _ hy))
  refine ⟨h, by rw [hlast]; rfl, ?_, hmaxS⟩
  by_cases hex : ∃ x ∈ stableVersions r.Versions, semver.Version.zero.LT x = true
  · -- some accepted version is greater than the zero version
    obtain ⟨x, hx, hlt⟩ := hex
    rcases List.mem_append.mp hmem with hz | hS
    · rw [(List.mem_replicate.mp hz).2] at hmaxS
      rw [hmaxS x hx] at hlt
      cases hlt
    · exact hS
  · -- every element ties with the zero version: the slice is left as it is
    have hzero : ∀ e ∈ List.replicate r.Versions.length semver.Version.zero ++
        stableVersions r.Versions, e.Major = 0 ∧ e.Minor = 0 ∧ e.Patch = 0 := by
      intro e he
      rcases List.mem_append.mp he with hz | hS
      · rw [(List.mem_replicate.mp hz).2]
        exact ⟨rfl, rfl, rfl⟩
      · have he0 : e.Pre = [] := hpre e he
        have h1 : ¬ (semver.Version.zero.LT e = true) := fun hlt => hex ⟨e, hS, hlt⟩
        rw [semver.LT_iff semver.Version.zero e rfl he0] at h1
        simp only [semver.Version.zero] at h1
        omega
    have hall : ∀ a ∈ List.replicate r.Versions.length semver.Version.zero ++
        stableVersions r.Versions, ∀ b ∈ List.replicate r.Versions.length
          semver.Version.zero ++ stableVersions r.Versions, a.LT b = false := by
      intro a ha b hb
      have ha0 := hzero a ha
      have hb0 := hzero b hb
      cases hlt : a.LT b with
      | false => rfl
      | true =>
        have := (semver.LT_iff a b (hpre a ha) (hpre b hb)).mp hlt
        omega
    rw [sortSort_tied lib hties _ hall, List.getLast?_append] at hlast
    cases hS : (stableVersions r.Versions).getLast? with
    | none => exact absurd (List.getLast?_eq_none_iff.mp hS) hne
    | some z =>
      rw [hS] at hlast
      simp only [Option.or_some, Option.some.injEq] at hlast
      subst hlast
      exact List.mem_of_getLast?_eq_some hS

theorem fill_Versions (lib : Library) (r : Release) :
    (r.fill lib).1.Versions = r.Versions := by
  cases hc : r.versions with
  | none => rw [fill_of_nil lib r hc]
  | some vs => rw [fill_of_some lib r vs hc]

theorem fill_versions_some (lib : Library) (r : Release) :
    ∃ vs, (r.fill lib).1.versions = some vs := by
  cases hc : r.versions with
  | none => rw [fill_of_nil lib r hc]; exact ⟨_, rfl⟩
  | some vs => rw [fill_of_some lib r vs hc]; exact ⟨vs, hc⟩

theorem parseWarnings_of_accepted (lib : Library) :
    ∀ m : List (String × Version), (∀ kv ∈ m, ∃ vp, semver.Make kv.1 = Except.ok vp) →
      parseWarnings lib m = "" := by
  intro m
  induction m with
  | nil => intro _; rfl
  | cons kv rest ih =>
    intro h
    obtain ⟨k, val⟩ := kv
    obtain ⟨vp, hvp⟩ := h (k, val) (List.mem_cons_self _ _)
    unfold parseWarnings parseWarning
    simp only [] at hvp
    rw [hvp, ih (fun kv hkv => h kv (List.mem_cons_of_mem _ hkv))]
    rfl

theorem fetchRelease_versions (net : Network) (product : String) (r : Release)
    (h : fetchRelease net product = Except.ok r) : r.versions = none := by
  unfold fetchRelease at h
  simp only [] at h
  split at h
  · cases h
  · cases h
  · cases h
    rfl

theorem buildLoop_none :
    ∀ l : List Build, buildLoop l = none ↔ ∀ b ∈ l, ¬ (b.OS = "linux" ∧ b.Arch = "amd64") := by
  intro l
  induction l with
  | nil => simp [buildLoop]
  | cons b bs ih =>
    unfold buildLoop
    split
    · rename_i h
      simp only [List.mem_cons, forall_eq_or_imp]
      constructor
      · intro h0; cases h0
      · intro h0; exact absurd h h0.1
    · rename_i h
      rw [ih]
      simp only [List.mem_cons, forall_eq_or_imp]
      exact ⟨fun h0 => ⟨h, h0⟩, fun h0 => h0.2⟩

theorem buildLoop_some :
    ∀ (l : List Build) (b : Build), buildLoop l = some b →
      ∃ before after, l = before ++ b :: after ∧ b.OS = "linux" ∧ b.Arch = "amd64" ∧
        ∀ x ∈ before, ¬ (x.OS = "linux" ∧ x.Arch = "amd64") := by
  intro l
  induction l with
  | nil => intro b h; simp [buildLoop] at h
  | cons c cs ih =>
    intro b h
    unfold buildLoop at h
    split at h
    · rename_i hc
      cases h
      exact ⟨[], cs, rfl, hc.1, hc.2, by simp⟩
    · rename_i hc
      obtain ⟨before, after, h1, h2, h3, h4⟩ := ih b h
      refine ⟨c :: before, after, by rw [h1]; rfl, h2, h3, ?_⟩
      intro x hx
      rcases List.mem_cons.mp hx with rfl | hx
      · exact hc
      · exact h4 x hx

/-! ## Auxiliary facts: runs that do not reach the parts taken as given -/

theorem parseWarnings_plain (lib : Library) :
    ∀ m : List (String × Version), warnsWithoutQuote m = true →
      parseWarnings lib m = parseWarnings plainLibrary m := by
  intro m
  induction m with
  | nil => intro _; rfl
  | cons kv rest ih =>
    intro h
    obtain ⟨k, val⟩ := kv
    unfold warnsWithoutQuote at h
    rw [List.all_cons, Bool.and_eq_true] at h
    have hrest : warnsWithoutQuote rest = true := h.2
    have hk := h.1
    unfold parseWarnings parseWarning
    rw [ih hrest]
    cases hm : semver.Make k with
    | ok vp => rfl
    | error err =>
      simp only [hm] at hk
      cases err with
      | New text => rfl
      | Errorf text arg => simp at hk
      | NumError f n e => simp at hk

/-- A call that sorts at most 12 elements and prints no quoted string does not
depend on the parts of the library that are taken as given. -/
theorem LatestRelease_of_short (lib : Library) (r : Release) (includePre : Bool)
    (hlen : r.Versions.length + (stableVersions r.Versions).length ≤ 12)
    (hquote : warnsWithoutQuote r.Versions = true) :
    r.LatestRelease lib includePre = r.LatestRelease plainLibrary includePre := by
  unfold Release.LatestRelease
  cases hc : r.versions with
  | some vs => rw [fill_of_some lib r vs hc, fill_of_some plainLibrary r vs hc]
  | none =>
    have hshort : ∀ l : Library, sortSort l (List.replicate r.Versions.length
        semver.Version.zero ++ stableVersions r.Versions) =
        insertionSort (List.replicate r.Versions.length semver.Version.zero ++
          stableVersions r.Versions) := by
      intro l
      unfold sortSort
      rw [if_pos (by simpa using hlen)]
    rw [fill_of_nil lib r hc, fill_of_nil plainLibrary r hc, hshort lib, hshort plainLibrary,
      parseWarnings_plain lib r.Versions hquote]

theorem main_of_short (lib : Library) (net : Network) (args : Args)
    (h : ∀ r, fetchRelease net args.Product = Except.ok r →
      r.LatestRelease lib false = r.LatestRelease plainLibrary false) :
    main lib net args = main plainLibrary net args := by
  unfold main
  cases hf : fetchRelease net args.Product with
  | error err => rfl
  | ok r =>
    simp only []
    rw [h r hf]

theorem main_mixedNet (lib : Library) (args : Args) :
    main lib mixedNet args = main plainLibrary mixedNet args := by
  apply main_of_short
  intro r hr
  have hfetch : fetchRelease mixedNet args.Product =
      Except.ok ⟨"consul", [("nightly", versionNightly), ("1.3.0", version130)], none⟩ := rfl
  rw [hfetch] at hr
  cases hr
  exact LatestRelease_of_short lib _ false (by decide) (by decide)

theorem main_emptyNet (lib : Library) (args : Args) :
    main lib emptyNet args = main plainLibrary emptyNet args := by
  apply main_of_short
  intro r hr
  have hfetch : fetchRelease emptyNet args.Product = Except.ok ⟨"consul", [], none⟩ := rfl
  rw [hfetch] at hr
  cases hr
  exact LatestRelease_of_short lib _ false (by decide) (by decide)

/-! ## The claims -/

/-- C1. For a release whose cache is nil and whose mapping is not empty and has
only keys that `Make` accepts as versions without prerelease, `LatestRelease`
returns a pointer that is not nil, to the value stored under a key whose parsed
version is greater than or equal to (`GTE`) the parsed version of every key.
Of the sort that the library runs on more than 12 elements the proof uses that
it returns an ascending permutation and leaves a slice of ties as it is. -/
theorem LatestRelease_returns_maximum (lib : Library) (r : Release) (includePre : Bool)
    (hsort : SortsAscending lib.pdqsort) (hties : KeepsTies lib.pdqsort)
    (hcache : r.versions = none) (hne : r.Versions ≠ [])
    (hkeys : ∀ kv ∈ r.Versions, ∃ vp, semver.Make kv.1 = Except.ok vp ∧ vp.Pre = []) :
    ∃ key val vmax, r.Versions.lookup key = some val ∧
      (r.LatestRelease lib includePre).ret = some val ∧
      semver.Make key = Except.ok vmax ∧
      ∀ kv ∈ r.Versions, ∀ vp, semver.Make kv.1 = Except.ok vp → vmax.GTE vp = true := by
  have hst : stableVersions r.Versions ≠ [] := by
    cases hm : r.Versions with
    | nil => exact absurd hm hne
    | cons kv rest =>
      obtain ⟨vp, hvp, hpre⟩ := hkeys kv (by rw [hm]; exact List.mem_cons_self kv rest)
      intro hnil
      have : vp ∈ stableVersions (kv :: rest) :=
        (stableVersions_mem vp (kv :: rest)).mpr ⟨kv, List.mem_cons_self kv rest, hvp, hpre⟩
      rw [hnil] at this
      cases this
  obtain ⟨h, hkey, hS, hmax⟩ := latest_of_stable lib hsort hties r hcache hst
  obtain ⟨kv, hkv, hmake, hpre⟩ := (stableVersions_mem h r.Versions).mp hS
  obtain ⟨val, hval⟩ := lookup_of_key r.Versions kv hkv
  have hstr : h.String = kv.1 := semver.Make_String kv.1 h hmake hpre
  refine ⟨kv.1, val, h, hval, ?_, hmake, ?_⟩
  · unfold Release.LatestRelease
    simp only []
    rw [hkey, hstr, fill_Versions]
    simp [mapIndex, hval]
  · intro kv2 hkv2 vp hvp
    obtain ⟨vp2, hvp2, hpre2⟩ := hkeys kv2 hkv2
    rw [hvp] at hvp2
    cases hvp2
    rw [semver.GTE_iff h vp hpre hpre2]
    exact hmax vp ((stableVersions_mem vp r.Versions).mpr ⟨kv2, hkv2, hvp, hpre2⟩)

/-- C1 on the release with the keys 1.2.0 and 1.3.0, the result with the key
2.0.0-beta added, the value stored under 1.3.0, and the result for seven keys
that tie at 0.0.0, the value stored under the key visited last. -/
theorem LatestRelease_returns_maximum_witness :
    SortsAscending plainLibrary.pdqsort ∧ KeepsTies plainLibrary.pdqsort ∧
    twoStable.versions = none ∧ twoStable.Versions ≠ [] ∧
    (∀ kv ∈ twoStable.Versions, ∃ vp, semver.Make kv.1 = Except.ok vp ∧ vp.Pre = []) ∧
    (∃ key val vmax, twoStable.Versions.lookup key = some val ∧
      (twoStable.LatestRelease plainLibrary false).ret = some val ∧
      semver.Make key = Except.ok vmax ∧
      ∀ kv ∈ twoStable.Versions, ∀ vp, semver.Make kv.1 = Except.ok vp →
        vmax.GTE vp = true) ∧
    (twoStable.LatestRelease plainLibrary false).ret = some version130 ∧
    (withBeta.LatestRelease plainLibrary false).ret = some version130 ∧
    (sevenTied.LatestRelease plainLibrary false).ret = some version130 :=
  have hkeys : ∀ kv ∈ twoStable.Versions,
      ∃ vp, semver.Make kv.1 = Except.ok vp ∧ vp.Pre = [] := by
    intro kv hkv
    simp only [twoStable, List.mem_cons, List.mem_nil_iff, or_false] at hkv
    rcases hkv with rfl | rfl
    · exact ⟨⟨1, 2, 0, [], []⟩, rfl, rfl⟩
    · exact ⟨⟨1, 3, 0, [], []⟩, rfl, rfl⟩
  ⟨insertionSort_sortsAscending, insertionSort_keepsTies, rfl, by decide, hkeys,
    LatestRelease_returns_maximum plainLibrary twoStable false insertionSort_sortsAscending
      insertionSort_keepsTies rfl (by decide) hkeys,
    by decide, by decide, by decide⟩

/-- C2. The claim fails on a mapping that is not empty and has no key accepted
without prerelease: for the single malformed key `nightly` the call returns a
pointer to the zero `Version`, not nil, because the slice starts with one
zero version per key. -/
theorem LatestRelease_malformed_only_not_nil (lib : Library) :
    (Release.mk "consul" [("nightly", versionNightly)] none).LatestRelease lib false =
      ⟨some Version.zero,
        ⟨"consul", [("nightly", versionNightly)], some [semver.Version.zero]⟩,
        "Failed to parse version nightly: No Major.Minor.Patch elements found"⟩ := by
  rw [LatestRelease_of_short lib _ false (by decide) (by decide)]
  decide

/-- C3. The claim fails on an index without versions: `LatestRelease` returns
nil and `main` calls `v.Build()`, which reads `v.Builds` through the nil
pointer; the run ends in a panic, not in `os.Exit(1)`. -/
theorem main_empty_index_nil_dereference (lib : Library) :
    ((Release.mk "consul" [] none).LatestRelease lib false).ret = none ∧
    main lib emptyNet ⟨"consul", "1.3.0", false⟩ = ⟨"", Exit.nilDereference⟩ := by
  rw [LatestRelease_of_short lib _ false (by decide) (by decide), main_emptyNet]
  decide

/-- C4. When the fetch succeeds and `LatestRelease` returns a version, `main`
exits with status 0 exactly when the `Version` field of that version equals
the expected version, and with status 1 otherwise; when the fetch fails it
exits with status 1. -/
theorem main_exit_status (lib : Library) (net : Network) (args : Args) :
    (∀ r v, fetchRelease net args.Product = Except.ok r →
      (r.LatestRelease lib false).ret = some v →
      ((main lib net args).exit = Exit.status 0 ↔ v.Version = args.Version) ∧
      (v.Version ≠ args.Version → (main lib net args).exit = Exit.status 1)) ∧
    (∀ err, fetchRelease net args.Product = Except.error err →
      (main lib net args).exit = Exit.status 1) := by
  constructor
  · intro r v hfetch hret
    unfold main
    simp only [hfetch, hret]
    by_cases hv : v.Version = args.Version
    · simp [hv]
    · simp [hv]
  · intro err hfetch
    unfold main
    simp only [hfetch]

/-- C4 on a network that serves the keys nightly and 1.3.0, and on a network
that is down. -/
theorem main_exit_status_witness :
    fetchRelease mixedNet "consul" =
      Except.ok ⟨"consul", [("nightly", versionNightly), ("1.3.0", version130)], none⟩ ∧
    ((Release.mk "consul" [("nightly", versionNightly), ("1.3.0", version130)]
      none).LatestRelease plainLibrary false).ret = some version130 ∧
    ((main plainLibrary mixedNet ⟨"consul", "1.3.0", false⟩).exit = Exit.status 0 ↔
      version130.Version = "1.3.0") ∧
    (main plainLibrary mixedNet ⟨"consul", "1.3.0", false⟩).exit = Exit.status 0 ∧
    (main plainLibrary mixedNet ⟨"consul", "1.2.0", false⟩).exit = Exit.status 1 ∧
    (main plainLibrary downNet ⟨"consul", "1.3.0", false⟩).exit = Exit.status 1 :=
  ⟨rfl, by decide,
    ((main_exit_status plainLibrary mixedNet ⟨"consul", "1.3.0", false⟩).1 _ version130 rfl
      (by decide)).1,
    by decide, by decide,
    (main_exit_status plainLibrary downNet ⟨"consul", "1.3.0", false⟩).2 _ rfl⟩

/-- C5. `Build` returns nil exactly when no build of the list has OS `linux`
and architecture `amd64`; otherwise it returns a copy of the earliest such
build: every build before it in the list fails the test. -/
theorem Build_returns_first_match (v : Version) :
    (v.Build = none ↔ ∀ b ∈ v.Builds, ¬ (b.OS = "linux" ∧ b.Arch = "amd64")) ∧
    (∀ b, v.Build = some b →
      ∃ before after, v.Builds = before ++ b :: after ∧ b.OS = "linux" ∧ b.Arch = "amd64" ∧
        ∀ x ∈ before, ¬ (x.OS = "linux" ∧ x.Arch = "amd64")) :=
  ⟨buildLoop_none v.Builds, buildLoop_some v.Builds⟩

/-- C5 on a version with a darwin build followed by two linux/amd64 builds,
and on a version without builds. -/
theorem Build_returns_first_match_witness :
    version130.Build = some linux130 ∧
    (∃ before after, version130.Builds = before ++ linux130 :: after ∧
      linux130.OS = "linux" ∧ linux130.Arch = "amd64" ∧
      ∀ x ∈ before, ¬ (x.OS = "linux" ∧ x.Arch = "amd64")) ∧
    version120.Build = none :=
  ⟨by decide, (Build_returns_first_match version130).2 linux130 (by decide), by decide⟩

/-- C6. For a release with a nil cache and any mapping, the slice that
`LatestRelease` builds is, up to the order, the zero versions with which
`make` fills it, one per key of the mapping whatever the key, followed by the
candidates of the mapping: one parsed version for each key that `Make` accepts
without prerelease, and nothing for a key that `Make` rejects or that has a
prerelease. So its length is the number of keys plus the number of accepted
keys, every element has no prerelease, and no version parsed from a key with a
prerelease is in it. The version returned is nil, or the value stored under a
key of the mapping that `Make` accepts without prerelease, or the zero
`Version` that the lookup of the absent key `0.0.0` gives; the key that is
looked up is never a key that `Make` rejects or that has a prerelease. Of the
sort that the library runs on more than 12 elements the proof uses that it
returns a permutation. The embedding is a total function: the call returns
for every mapping. -/
theorem LatestRelease_skips_malformed_and_prerelease (lib : Library) (r : Release)
    (includePre : Bool)
    (hperm : ∀ vs, 12 < vs.length → (lib.pdqsort vs).Perm vs)
    (hcache : r.versions = none) :
    (∃ vs, (r.LatestRelease lib includePre).r.versions = some vs ∧
      vs.Perm (List.replicate r.Versions.length semver.Version.zero ++
        r.Versions.filterMap (fun kv => stableVersion kv.1)) ∧
      vs.length = r.Versions.length +
        (r.Versions.filterMap (fun kv => stableVersion kv.1)).length ∧
      (∀ v ∈ vs, v.Pre = []) ∧
      (∀ kv ∈ r.Versions, ∀ vp, semver.Make kv.1 = Except.ok vp → vp.Pre ≠ [] → vp ∉ vs)) ∧
    (∀ kv ∈ r.Versions, (∀ vp, semver.Make kv.1 = Except.ok vp → vp.Pre ≠ []) →
      stableVersion kv.1 = none) ∧
    ((r.LatestRelease lib includePre).ret = none ∨
      (∃ kv ∈ r.Versions, ∃ vp, semver.Make kv.1 = Except.ok vp ∧ vp.Pre = [] ∧
        (r.LatestRelease lib includePre).ret = r.Versions.lookup kv.1) ∨
      ((r.LatestRelease lib includePre).ret = some Version.zero ∧
        r.Versions.lookup "0.0.0" = none)) ∧
    (∀ kv ∈ r.Versions, (∀ vp, semver.Make kv.1 = Except.ok vp → vp.Pre ≠ []) →
      (r.LatestRelease lib includePre).r.latestKey ≠ some kv.1) := by
  have hP := sortSort_perm lib hperm
    (List.replicate r.Versions.length semver.Version.zero ++ stableVersions r.Versions)
  have hpre : ∀ v ∈ sortSort lib (List.replicate r.Versions.length semver.Version.zero ++
      stableVersions r.Versions), v.Pre = [] :=
    fun v hv => cache_pre_nil r.Versions v (hP.mem_iff.mp hv)
  have hr : (r.LatestRelease lib includePre).r = ⟨r.Name, r.Versions, some (sortSort lib
      (List.replicate r.Versions.length semver.Version.zero ++
        stableVersions r.Versions))⟩ := by
    unfold Release.LatestRelease
    rw [fill_of_nil lib r hcache]
  have hret : (r.LatestRelease lib includePre).ret =
      (r.LatestRelease lib includePre).r.latestKey.map (mapIndex r.Versions) := by
    unfold Release.LatestRelease
    simp only [fill_Versions]
  -- where the key that is looked up comes from
  have hkey : ∀ key, (r.LatestRelease lib includePre).r.latestKey = some key →
      (∃ kv ∈ r.Versions, kv.1 = key ∧ ∃ vp, semver.Make kv.1 = Except.ok vp ∧ vp.Pre = []) ∨
      key = "0.0.0" := by
    intro key hk
    rw [hr, latestKey_eq] at hk
    simp only [Option.getD_some, Option.map_eq_some'] at hk
    obtain ⟨h, hlast, hstr⟩ := hk
    have hmem := hP.mem_iff.mp (List.mem_of_getLast?_eq_some hlast)
    rcases List.mem_append.mp hmem with hz | hS
    · right
      rw [← hstr, (List.mem_replicate.mp hz).2]
      rfl
    · left
      obtain ⟨kv, hkv, hmake, hp⟩ := (stableVersions_mem h r.Versions).mp hS
      refine ⟨kv, hkv, ?_, h, hmake, hp⟩
      rw [← hstr]
      exact (semver.Make_String kv.1 h hmake hp).symm
  have hzero : semver.Make "0.0.0" = Except.ok semver.Version.zero := rfl
  refine ⟨⟨_, by rw [hr], hP, ?_, hpre, ?_⟩, ?_, ?_, ?_⟩
  · have := hP.length_eq
    simpa [stableVersions] using this
  · intro kv _ vp _ hbad hvp
    exact hbad (hpre vp hvp)
  · intro kv _ hbad
    cases hs : stableVersion kv.1 with
    | none => rfl
    | some v =>
      have := (stableVersion_some kv.1 v).mp hs
      exact absurd this.2 (hbad v this.1)
  · rw [hret]
    cases hk : (r.LatestRelease lib includePre).r.latestKey with
    | none => exact Or.inl rfl
    | some key =>
      right
      rcases hkey key hk with ⟨kv, hkv, rfl, vp, hmake, hp⟩ | rfl
      · left
        obtain ⟨val, hval⟩ := lookup_of_key r.Versions kv hkv
        refine ⟨kv, hkv, vp, hmake, hp, ?_⟩
        simp [mapIndex, hval]
      · cases hl : r.Versions.lookup "0.0.0" with
        | none =>
          right
          refine ⟨?_, rfl⟩
          simp [mapIndex, hl]
        | some val =>
          left
          obtain ⟨l1, l2, hsplit, _⟩ := List.lookup_eq_some_iff.mp hl
          refine ⟨("0.0.0", val), by rw [hsplit]; simp, semver.Version.zero, hzero, rfl, ?_⟩
          simp [mapIndex, hl]
  · intro kv hkv hbad hk
    rcases hkey kv.1 hk with ⟨kv2, _, heq, vp, hmake, hp⟩ | h0
    · rw [heq] at hmake
      exact hbad vp hmake hp
    · rw [h0] at hbad
      exact hbad _ hzero rfl

/-- C6 on a release with the keys nightly, 2.0.0-beta and 1.3.0. -/
theorem LatestRelease_skips_malformed_and_prerelease_witness :
    (∀ vs, 12 < vs.length → (plainLibrary.pdqsort vs).Perm vs) ∧
    mixed.versions = none ∧
    (mixed.LatestRelease plainLibrary false).r.versions =
      some [semver.Version.zero, semver.Version.zero, semver.Version.zero,
        ⟨1, 3, 0, [], []⟩] ∧
    (mixed.LatestRelease plainLibrary false).ret = some version130 ∧
    stableVersion "nightly" = none ∧ stableVersion "2.0.0-beta" = none ∧
    stableVersion "1.3.0" = some ⟨1, 3, 0, [], []⟩ ∧
    (mixed.LatestRelease plainLibrary false).r.latestKey ≠ some "nightly" ∧
    (mixed.LatestRelease plainLibrary false).r.latestKey ≠ some "2.0.0-beta" :=
  ⟨fun vs _ => insertionSort_perm vs, rfl, by decide, by decide, by decide, by decide,
    by decide,
    (LatestRelease_skips_malformed_and_prerelease plainLibrary mixed false
      (fun vs _ => insertionSort_perm vs) rfl).2.2.2
      ("nightly", versionNightly) (by decide) (by
        intro vp hvp
        have h : semver.Make "nightly" =
            Except.error (GoError.New "No Major.Minor.Patch elements found") := rfl
        rw [h] at hvp
        cases hvp),
    (LatestRelease_skips_malformed_and_prerelease plainLibrary mixed false
      (fun vs _ => insertionSort_perm vs) rfl).2.2.2
      ("2.0.0-beta", version200beta) (by decide) (by
        intro vp hvp
        have h : semver.Make "2.0.0-beta" =
            Except.ok ⟨2, 0, 0, [⟨"beta", 0, false⟩], []⟩ := rfl
        rw [h] at hvp
        cases hvp
        simp)⟩

/-- C7. The claim fails on every mapping that is not empty: the slice starts
with one zero version per key of the mapping, so for the single key `1.3.0`
the cache has two elements, the zero version and 1.3.0, where one key is
accepted without prerelease. -/
theorem LatestRelease_cache_has_padding (lib : Library) :
    ((Release.mk "consul" [("1.3.0", version130)] none).LatestRelease lib false).r.versions =
      some [semver.Version.zero, ⟨1, 3, 0, [], []⟩] ∧
    stableVersions [("1.3.0", version130)] = [⟨1, 3, 0, [], []⟩] := by
  rw [LatestRelease_of_short lib _ false (by decide) (by decide)]
  decide

/-- C8. A second call of `LatestRelease` on the receiver that the first call
left, with any argument, returns what the first call returned and leaves the
receiver, and so the cache, as it was; the mapping is the one before the first
call; the cache is not nil after the first call, so the second call skips the
block that computes it, and it prints nothing. -/
theorem LatestRelease_idempotent (lib : Library) (r : Release) (p q : Bool) :
    ((r.LatestRelease lib p).r.LatestRelease lib q).ret = (r.LatestRelease lib p).ret ∧
    ((r.LatestRelease lib p).r.LatestRelease lib q).r = (r.LatestRelease lib p).r ∧
    (r.LatestRelease lib p).r.Versions = r.Versions ∧
    (r.LatestRelease lib p).r.versions ≠ none ∧
    (r.LatestRelease lib p).r.fill lib = ((r.LatestRelease lib p).r, "") ∧
    ((r.LatestRelease lib p).r.LatestRelease lib q).stdout = "" := by
  obtain ⟨vs, hvs⟩ := fill_versions_some lib r
  have hfill : (r.fill lib).1.fill lib = ((r.fill lib).1, "") :=
    fill_of_some lib (r.fill lib).1 vs hvs
  have hcall : (r.fill lib).1.LatestRelease lib q =
      ⟨(r.fill lib).1.latestKey.map (mapIndex (r.fill lib).1.Versions), (r.fill lib).1, ""⟩ := by
    unfold Release.LatestRelease
    rw [hfill]
  have hr : (r.LatestRelease lib p).r = (r.fill lib).1 := rfl
  rw [hr, hcall]
  refine ⟨rfl, rfl, fill_Versions lib r, ?_, hfill, rfl⟩
  rw [hvs]
  simp

/-- C10. The argument `includePre` has no effect: both values give the same
result, receiver and output; with a nil cache the slice that the call with
`true` builds holds no version with a prerelease. Of the sort that the library
runs on more than 12 elements the second part uses that it returns a
permutation. -/
theorem LatestRelease_ignores_includePre (lib : Library) (r : Release) :
    r.LatestRelease lib true = r.LatestRelease lib false ∧
    ((∀ vs, 12 < vs.length → (lib.pdqsort vs).Perm vs) → r.versions = none →
      ∀ vs, (r.LatestRelease lib true).r.versions = some vs → ∀ v ∈ vs, v.Pre = []) := by
  refine ⟨rfl, ?_⟩
  intro hperm hcache vs hvs v hv
  unfold Release.LatestRelease at hvs
  simp only [fill_of_nil lib r hcache, Option.some.injEq] at hvs
  subst hvs
  exact cache_pre_nil r.Versions v ((sortSort_perm lib hperm _).mem_iff.mp hv)

/-- C10 on the release with the keys 2.0.0-beta, 1.2.0 and 1.3.0. -/
theorem LatestRelease_ignores_includePre_witness :
    withBeta.LatestRelease plainLibrary true = withBeta.LatestRelease plainLibrary false ∧
    (∀ vs, 12 < vs.length → (plainLibrary.pdqsort vs).Perm vs) ∧
    withBeta.versions = none ∧
    (withBeta.LatestRelease plainLibrary true).r.versions =
      some [semver.Version.zero, semver.Version.zero, semver.Version.zero,
        ⟨1, 2, 0, [], []⟩, ⟨1, 3, 0, [], []⟩] ∧
    (withBeta.LatestRelease plainLibrary true).ret = some version130 ∧
    (∀ v ∈ [semver.Version.zero, semver.Version.zero, semver.Version.zero,
        ⟨1, 2, 0, [], []⟩, ⟨1, 3, 0, [], []⟩], v.Pre = []) :=
  ⟨(LatestRelease_ignores_includePre plainLibrary withBeta).1,
    fun vs _ => insertionSort_perm vs, rfl, by decide, by decide,
    (LatestRelease_ignores_includePre plainLibrary withBeta).2
      (fun vs _ => insertionSort_perm vs) rfl _ (by decide)⟩

/-- C9, as stated, fails: with a malformed key in the index, a run that exits
with status 0, with the URL flag set and a linux/amd64 build of the latest
version, writes the parse warning before the URL line. The run does not reach
the parts of the library that are taken as given. -/
theorem main_stdout_has_warnings :
    (∀ lib args, main lib mixedNet args = main plainLibrary mixedNet args) ∧
    (main plainLibrary mixedNet ⟨"consul", "1.3.0", true⟩).exit = Exit.status 0 ∧
    version130.Build = some linux130 ∧
    (main plainLibrary mixedNet ⟨"consul", "1.3.0", true⟩).stdout =
      "Failed to parse version nightly: No Major.Minor.Patch elements found" ++
        (linux130.URL ++ "\n") ∧
    (main plainLibrary mixedNet ⟨"consul", "1.3.0", true⟩).stdout ≠ linux130.URL ++ "\n" ∧
    (main plainLibrary mixedNet ⟨"consul", "1.3.0", false⟩).exit = Exit.status 0 ∧
    (main plainLibrary mixedNet ⟨"consul", "1.3.0", false⟩).stdout ≠ "" :=
  ⟨main_mixedNet, by decide, by decide, by decide, by decide, by decide, by decide⟩

/-- C9, amended. On a run of `main` that exits with status 0, standard output
holds the warnings of `LatestRelease`, one for each key that `Make` rejects,
in iteration order, each the text `Failed to parse version`, the key, a colon
and the text of the error, followed by the URL of the build that `Build`
returns for the latest version and a newline when the URL flag is set and
there is such a build, and by nothing otherwise. When `Make` accepts every
key, this is the URL line or the empty text. -/
theorem main_stdout_on_success (lib : Library) (net : Network) (args : Args) (r : Release)
    (hfetch : fetchRelease net args.Product = Except.ok r)
    (hexit : (main lib net args).exit = Exit.status 0) :
    ∃ v, (r.LatestRelease lib false).ret = some v ∧
      (main lib net args).stdout = parseWarnings lib r.Versions ++
        (match v.Build with
          | some b => if args.URL then b.URL ++ "\n" else ""
          | none => "") ∧
      ((∀ kv ∈ r.Versions, ∃ vp, semver.Make kv.1 = Except.ok vp) →
        (main lib net args).stdout =
          (match v.Build with
            | some b => if args.URL then b.URL ++ "\n" else ""
            | none => "")) := by
  have hcache := fetchRelease_versions net args.Product r hfetch
  have hout : (r.LatestRelease lib false).stdout = parseWarnings lib r.Versions := by
    unfold Release.LatestRelease
    rw [fill_of_nil lib r hcache]
  have hmain : ∀ v, (r.LatestRelease lib false).ret = some v →
      (main lib net args).stdout = parseWarnings lib r.Versions ++
        (match v.Build with
          | some b => if args.URL then b.URL ++ "\n" else ""
          | none => "") := by
    intro v hret
    unfold main
    simp only [hfetch, hret, hout]
    cases v.Build with
    | none => split <;> simp
    | some b => cases args.URL <;> split <;> simp
  cases hret : (r.LatestRelease lib false).ret with
  | none =>
    exfalso
    unfold main at hexit
    simp only [hfetch, hret] at hexit
    cases hexit
  | some v =>
    refine ⟨v, rfl, hmain v hret, ?_⟩
    intro hall
    rw [hmain v hret, parseWarnings_of_accepted lib r.Versions hall, String.empty_append]

/-- C9, amended, on a network that serves the keys nightly and 1.3.0. -/
theorem main_stdout_on_success_witness :
    fetchRelease mixedNet "consul" =
      Except.ok ⟨"consul", [("nightly", versionNightly), ("1.3.0", version130)], none⟩ ∧
    (main plainLibrary mixedNet ⟨"consul", "1.3.0", true⟩).exit = Exit.status 0 ∧
    (∃ v, ((Release.mk "consul" [("nightly", versionNightly), ("1.3.0", version130)]
        none).LatestRelease plainLibrary false).ret = some v ∧
      (main plainLibrary mixedNet ⟨"consul", "1.3.0", true⟩).stdout =
        parseWarnings plainLibrary [("nightly", versionNightly), ("1.3.0", version130)] ++
          (match v.Build with
            | some b => if true then b.URL ++ "\n" else ""
            | none => "") ∧
      ((∀ kv ∈ [("nightly", versionNightly), ("1.3.0", version130)],
          ∃ vp, semver.Make kv.1 = Except.ok vp) →
        (main plainLibrary mixedNet ⟨"consul", "1.3.0", true⟩).stdout =
          (match v.Build with
            | some b => if true then b.URL ++ "\n" else ""
            | none => ""))) :=
  ⟨rfl, by decide,
    main_stdout_on_success plainLibrary mixedNet ⟨"consul", "1.3.0", true⟩ _ rfl (by decide)⟩

end HashicorpReleases
